import Mathlib

/-!
Verification development for the annotation evaluator
`src/projects/nerre/eval.py` of this repository.

Python strings are modelled as lists of characters (`Str`), and the Python
string primitives the script uses (`strip`, `split` on a one-character
separator, `replace`, `startswith`/`endswith`, lexicographic `<`) are
implemented below by structural recursion, so that every concrete run of the
embedded functions evaluates inside the kernel.
-/

namespace NerreEval

/-- Python strings, modelled as lists of characters. -/
abbrev Str := List Char

/-- Convert a Lean string literal to the `Str` model. -/
def pstr (s : String) : Str := s.data

/-- The whitespace characters stripped by Python `str.strip()`. -/
def isPyWs (c : Char) : Bool :=
  c == ' ' || c == '\t' || c == '\n' || c == '\r' || c == '\x0b' || c == '\x0c'

/-- Drop leading Python whitespace. -/
def stripLeft : Str → Str
  | [] => []
  | c :: cs => if isPyWs c then stripLeft cs else c :: cs

/-- Python `str.strip()`: drop leading and trailing whitespace. -/
def pyStrip (s : Str) : Str :=
  stripLeft (stripLeft s.reverse).reverse

/-- Python `s.split(sep)` for a one-character separator; like the source's
`split("\t")` and `split(" ")` it never collapses adjacent separators and
always returns at least one (possibly empty) piece. -/
def pySplit (sep : Char) : Str → List Str
  | [] => [[]]
  | c :: cs =>
    let r := pySplit sep cs
    if c == sep then [] :: r
    else
      match r with
      | [] => [[c]]
      | t :: ts => (c :: t) :: ts

/-- Helper for `pyReplace`; the fuel argument is the length of the remaining
input, which bounds the recursion depth since every step consumes at least
one character. -/
def pyReplaceAux (pat rep : Str) : Nat → Str → Str
  | 0, l => l
  | _ + 1, [] => []
  | n + 1, c :: cs =>
    if pat.isPrefixOf (c :: cs) && !pat.isEmpty then
      rep ++ pyReplaceAux pat rep n ((c :: cs).drop pat.length)
    else
      c :: pyReplaceAux pat rep n cs

/-- Python `s.replace(pat, rep)`: replace non-overlapping occurrences left to
right (the source only calls it with a non-empty pattern). -/
def pyReplace (pat rep s : Str) : Str := pyReplaceAux pat rep s.length s

/-- Python `<` on strings: lexicographic comparison of code points. -/
def pyLt : Str → Str → Bool
  | [], [] => false
  | [], _ :: _ => true
  | _ :: _, [] => false
  | a :: as, b :: bs =>
    if a.toNat < b.toNat then true
    else if b.toNat < a.toNat then false
    else pyLt as bs

/-- Indexing `l[n]` as an option, by structural recursion. -/
def nth {α : Type} : List α → Nat → Option α
  | [], _ => none
  | x :: _, 0 => some x
  | _ :: xs, n + 1 => nth xs n

/-- Indexing `l[n]` with a default. -/
def nthD {α : Type} (l : List α) (n : Nat) (d : α) : α := (nth l n).getD d

/-- Python `list.index` for an element that occurs in the list (returns the
length when absent; the source only reads it behind a membership guard or a
caught `IndexError`). -/
def idxOf : List Str → Str → Nat
  | [], _ => 0
  | x :: xs, k => if x = k then 0 else idxOf xs k + 1

/-- Iterating a Python `set(...)` built from a list, modelled as keeping the
first occurrence of each element (the actual iteration order of a Python
set is unspecified; every use in the source is order-insensitive). -/
def dedupAux {α : Type} [DecidableEq α] (seen : List α) : List α → List α
  | [] => []
  | x :: xs => if x ∈ seen then dedupAux seen xs else x :: dedupAux (seen ++ [x]) xs

/-- An uncaught Python exception of the evaluation script. -/
inductive PyErr where
  /-- An `IndexError` raised outside any `try` block: a line without a second
  tab field (eval.py line 201), a relation line missing its `Arg1`/`Arg2`
  tokens (lines 210-211), or a `Synonym-of` entity reference without a second
  underscore token (lines 220-222 and 246). -/
  | indexError
  /-- A `NameError`/`UnboundLocalError`: a relation argument identifier that
  matched no line, read at lines 220-227 while `ent1`/`ent2` were never
  bound. -/
  | nameError
  /-- A `KeyError`: `metrics['KEYPHRASE-NOTYPES']` read at line 92 when no
  such label was collected. -/
  | keyError
deriving DecidableEq, Repr

/-- A normalised relation, the token view of the strings
`label ++ " " ++ ent1 ++ " " ++ ent2` that `eval.py` stores in `rels_anno`:
the source always splits such a string on `" "` before using it and joins
exactly three space-free tokens to build it, so the string form and this
triple form are in bijection. -/
structure RelT where
  label : Str
  arg1 : Str
  arg2 : Str
deriving DecidableEq, Repr

/-- The string `label ++ " " ++ arg1 ++ " " ++ arg2` stored in `rels_anno`
and `res_anno`. -/
def relString (r : RelT) : Str := r.label ++ [' '] ++ r.arg1 ++ [' '] ++ r.arg2

/-- The span key `arg1 ++ " " ++ arg2` of a relation. -/
def relSpan (r : RelT) : Str := r.arg1 ++ [' '] ++ r.arg2

/-- The mutable state of the first loop of `normaliseAnnotations`
(eval.py lines 194-240).  `ent1`/`ent2` model the Python local variables of
the same names: they persist across loop iterations, so a relation argument
that matches no line silently reuses the previous value when one exists.
`diags` counts the `"IndexError! Faulty annotations"` diagnostics printed. -/
structure NAState where
  resFull : List Str
  res : List Str
  spans : List Str
  rels : List RelT
  ent1 : Option Str
  ent2 : Option Str
  diags : Nat
deriving DecidableEq, Repr

/-- The empty initial state of `normaliseAnnotations`. -/
def naInit : NAState := ⟨[], [], [], [], none, none, 0⟩

/-- The lookup loop of eval.py lines 212-217: scan every stored line, and for
each one whose first tab field equals `arg1` (resp. `arg2`) rebind `ent1`
(resp. `ent2`) to its second tab field with spaces replaced by
underscores.  Lines stored in `res_full_anno` always have a second tab field
(they passed line 201), so the `[]` default of `nthD` is never reached on
runs of the embedded script. -/
def lookupEnts (arg1 arg2 : Str) : List Str → Option Str × Option Str → Option Str × Option Str
  | [], acc => acc
  | l :: ls, (e1, e2) =>
    let tmp := pySplit '\t' (pyStrip l)
    let ent := pyReplace [' '] ['_'] (nthD tmp 1 [])
    let e1' := if nthD tmp 0 [] = arg1 then some ent else e1
    let e2' := if nthD tmp 0 [] = arg2 then some ent else e2
    lookupEnts arg1 arg2 ls (e1', e2')

/-- The `Synonym-of` argument ordering of eval.py lines 219-225: swap the two
entity references when the second underscore token of the first compares
greater (Python string `>`) than that of the second.  `t1`/`t2` are the
tokens `ent1.split("_")[1]` and `ent2.split("_")[1]`. -/
def orderSynPair (ent1 ent2 t1 t2 : Str) : Str × Str :=
  if pyLt t2 t1 then (ent2, ent1) else (ent1, ent2)

/-- Push a normalised relation: eval.py lines 227-229 plus the persisting
`ent1`/`ent2` bindings the line leaves behind. -/
def pushRel (st : NAState) (label ent1 ent2 : Str) : NAState :=
  { st with
    spans := st.spans ++ [ent1 ++ [' '] ++ ent2]
    res := st.res ++ [relString ⟨label, ent1, ent2⟩]
    rels := st.rels ++ [⟨label, ent1, ent2⟩]
    ent1 := some ent1
    ent2 := some ent2 }

/-- One iteration of the first loop of `normaliseAnnotations`
(eval.py lines 199-239) on one input line. -/
def naStep (removeAnno : List Str) (st : NAState) (l : Str) : Except PyErr NAState :=
  let stripped := pyStrip l
  let r_g := pySplit '\t' stripped
  match nth r_g 1 with
  | none => .error .indexError
  | some f1 =>
    let r_g_offs := pySplit ' ' f1
    let label := nthD r_g_offs 0 []
    if removeAnno.contains (pstr "rel") && (pstr "-of").isSuffixOf label then
      .ok st
    else
      let st1 := { st with resFull := st.resFull ++ [stripped] }
      if (pstr "-of").isSuffixOf label then
        match nth r_g_offs 1, nth r_g_offs 2 with
        | some a1, some a2 =>
          let arg1 := pyReplace (pstr "Arg1:") [] a1
          let arg2 := pyReplace (pstr "Arg2:") [] a2
          match lookupEnts arg1 arg2 st1.resFull (st.ent1, st.ent2) with
          | (some ent1, some ent2) =>
            if label = pstr "Synonym-of" then
              match nth (pySplit '_' ent1) 1, nth (pySplit '_' ent2) 1 with
              | some t1, some t2 =>
                let p := orderSynPair ent1 ent2 t1 t2
                .ok (pushRel st1 label p.1 p.2)
              | _, _ => .error .indexError
            else
              .ok (pushRel st1 label ent1 ent2)
          | (_, _) => .error .nameError
        | _, _ => .error .indexError
      else
        match nth r_g_offs 1 with
        | none => .ok { st1 with diags := st1.diags + 1 }
        | some o1 =>
          match nth r_g_offs 2 with
          | none => .ok { st1 with diags := st1.diags + 1 }
          | some o2 =>
            let keytype := if removeAnno.contains (pstr "types") then pstr "KEYPHRASE-NOTYPES" else f1
            .ok { st1 with
                  spans := st1.spans ++ [o1 ++ [' '] ++ o2]
                  res := st1.res ++ [keytype] }

/-- The first loop of `normaliseAnnotations` over all input lines; an
uncaught exception aborts the whole function. -/
def naLines (removeAnno : List Str) : List Str → NAState → Except PyErr NAState
  | [], st => .ok st
  | l :: ls, st =>
    match naStep removeAnno st l with
    | .error e => .error e
    | .ok st' => naLines removeAnno ls st'

/-- Replace the first occurrence of `old`, the behaviour of
`rels_anno[rels_anno.index(old)] = new`; when `old` is absent this is a
no-op, the behaviour of the source's `except ValueError: continue`. -/
def replaceFirst : List RelT → RelT → RelT → List RelT
  | [], _, _ => []
  | x :: xs, old, new =>
    if x = old then new :: xs else x :: replaceFirst xs old new

/-- The inner loop of the rewrite pass (eval.py lines 252-266) for the
synonym pair `(e1, e2)`: walk the (mutating) relation list by index; at each
position, a `Hyponym-of` whose first argument equals `e1` has its first
occurrence rewritten to use `e2`, and then — testing the stale pre-rewrite
value, as the source does — a `Hyponym-of` whose second argument equals `e1`
is likewise rewritten where still present.  `j` is the current index and the
`Nat` fuel is the number of remaining iterations (the list length is
invariant under rewriting). -/
def rewriteInner (e1 e2 : Str) : Nat → Nat → List RelT → List RelT
  | _, 0, L => L
  | j, n + 1, L =>
    match nth L j with
    | none => L
    | some r2 =>
      let L1 :=
        if r2.label = pstr "Hyponym-of" ∧ e1 = r2.arg1 then
          replaceFirst L r2 ⟨r2.label, e2, r2.arg2⟩
        else L
      let L2 :=
        if r2.label = pstr "Hyponym-of" ∧ e1 = r2.arg2 then
          replaceFirst L1 r2 ⟨r2.label, r2.arg1, e2⟩
        else L1
      rewriteInner e1 e2 (j + 1) n L2

/-- The outer loop of the rewrite pass (eval.py lines 243-266).  For every
`Synonym-of` entry, the source first evaluates the condition of the dead
reordering at lines 245-247 (the reassignment binds only the loop variable,
which is never read afterwards, but evaluating `r_offs[2].split("_")[1]` and
`r_offs[1].split("_")[1]` can still raise `IndexError`), then rewrites
hyponym references to the pair's first member.  Entries rewritten during the
pass are revisited by the outer iterator, but a rewrite always produces a
`Hyponym-of` entry, which the outer loop ignores. -/
def rewriteOuterGo : Nat → Nat → List RelT → Except PyErr (List RelT)
  | _, 0, L => .ok L
  | i, n + 1, L =>
    match nth L i with
    | none => .ok L
    | some r =>
      if r.label = pstr "Synonym-of" then
        match nth (pySplit '_' r.arg2) 1, nth (pySplit '_' r.arg1) 1 with
        | some _, some _ =>
          rewriteOuterGo (i + 1) n (rewriteInner r.arg1 r.arg2 0 L.length L)
        | _, _ => .error .indexError
      else rewriteOuterGo (i + 1) n L

/-- The full single rewrite pass over the relation list. -/
def rewritePass (L : List RelT) : Except PyErr (List RelT) :=
  rewriteOuterGo 0 L.length L

/-- The four parallel sequences returned by `normaliseAnnotations`, plus the
count of diagnostics printed. -/
structure NAOut where
  resFull : List Str
  res : List Str
  spans : List Str
  rels : List RelT
  diags : Nat
deriving DecidableEq, Repr

/-- The rebuild loop of eval.py lines 274-284: relation lines (id starting
with `R`, or `*`) are dropped; any other stored line is re-appended, and its
label and span are copied from the index of its first occurrence — the
`IndexError` of a dangling index is caught and reported, after the full line
was already re-appended. -/
def rebuildGo (full res spans : List Str) : List Str → NAOut → NAOut
  | [], acc => acc
  | r :: rest, acc =>
    let r_g := pySplit '\t' (pyStrip r)
    if (pstr "R").isPrefixOf (nthD r_g 0 []) || nthD r_g 0 [] = pstr "*" then
      rebuildGo full res spans rest acc
    else
      let ind := idxOf full r
      let acc1 := { acc with resFull := acc.resFull ++ [r] }
      match nth res ind with
      | none => rebuildGo full res spans rest { acc1 with diags := acc1.diags + 1 }
      | some v =>
        let acc2 := { acc1 with res := acc1.res ++ [v] }
        match nth spans ind with
        | none => rebuildGo full res spans rest { acc2 with diags := acc2.diags + 1 }
        | some s =>
          rebuildGo full res spans rest { acc2 with spans := acc2.spans ++ [s] }

/-- eval.py lines 286-289: append every surviving relation to the three
sequences. -/
def appendRels (acc : NAOut) : List RelT → NAOut
  | [] => acc
  | r :: rs =>
    appendRels
      { acc with
        resFull := acc.resFull ++ [pstr "R\t" ++ relString r]
        res := acc.res ++ [relString r]
        spans := acc.spans ++ [relSpan r] } rs

/-- The function `normaliseAnnotations` (eval.py lines 187-291) on the lines of one
annotation file. -/
def normaliseAnnotations (fileLines : List Str) (removeAnno : List Str) :
    Except PyErr NAOut :=
  match naLines removeAnno fileLines naInit with
  | .error e => .error e
  | .ok st =>
    match rewritePass st.rels with
    | .error e => .error e
    | .ok rels1 =>
      let rels2 := dedupAux [] rels1
      .ok (appendRels (rebuildGo st.resFull st.res st.spans st.resFull ⟨[], [], [], rels2, st.diags⟩) rels2)

/-- One file of a folder pair: its name, the lines of the gold file, and the
lines of the predicted file of the same name, `none` when opening it raises
`IOError`. -/
structure MFile where
  name : Str
  gold : List Str
  pred : Option (List Str)

/-- The accumulation lists `res_all_gold`, `res_all_pred` and `targets` that
`calculateMeasures` builds across all files (eval.py lines 21-23). -/
structure CMAcc where
  resAllGold : List Str
  resAllPred : List Str
  targets : List Str
deriving DecidableEq, Repr

/-- The label lookup `res_gold[spans_gold.index(r)].split(" ")[0]` (eval.py lines 50 and 59):
the first space token of the label entry at the first index of the span key.
The source only evaluates this behind an `r in spans` guard, and on its own
outputs `res` and `spans` always have equal length, so the defaults are
never reached there. -/
def labelAt (res spans : List Str) (k : Str) : Str :=
  nthD (pySplit ' ' (nthD res (idxOf spans k) [])) 0 []

/-- The per-span-key loop of `calculateMeasures` (eval.py lines 48-63) over
an already deduplicated key sequence: each key appends one entry to the gold
sequence (the gold label when the key is a gold span, else `"NONE"`) and one
entry to the predicted sequence (symmetrically), and newly seen gold labels
are appended to `targets`. -/
def collectKeys (resG spansG resP spansP : List Str) (acc : CMAcc) :
    List Str → CMAcc
  | [] => acc
  | k :: ks =>
    let acc1 :=
      if k ∈ spansG then
        let target := labelAt resG spansG k
        { acc with
          resAllGold := acc.resAllGold ++ [target]
          targets := if target ∈ acc.targets then acc.targets else acc.targets ++ [target] }
      else { acc with resAllGold := acc.resAllGold ++ [pstr "NONE"] }
    let acc2 :=
      if k ∈ spansP then
        { acc1 with resAllPred := acc1.resAllPred ++ [labelAt resP spansP k] }
      else { acc1 with resAllPred := acc1.resAllPred ++ [pstr "NONE"] }
    collectKeys resG spansG resP spansP acc2 ks

/-- Processing of one gold-folder file by `calculateMeasures`
(eval.py lines 30-63): non-`.ann` names are skipped; a missing predicted
file is either skipped (`ignoremissing`) or treated as empty predictions;
otherwise the predicted file is normalised first, then the gold file, and
the union of their span keys is scored. -/
def cmFile (removeAnno : List Str) (ignoremissing : Bool) (acc : CMAcc)
    (f : MFile) : Except PyErr CMAcc :=
  if !((pstr ".ann").isSuffixOf f.name) then .ok acc
  else
    match f.pred with
    | some predLines =>
      match normaliseAnnotations predLines removeAnno with
      | .error e => .error e
      | .ok po =>
        match normaliseAnnotations f.gold removeAnno with
        | .error e => .error e
        | .ok go =>
          .ok (collectKeys go.res go.spans po.res po.spans acc
                (dedupAux [] (go.spans ++ po.spans)))
    | none =>
      if ignoremissing then .ok acc
      else
        match normaliseAnnotations f.gold removeAnno with
        | .error e => .error e
        | .ok go =>
          .ok (collectKeys go.res go.spans [] [] acc
                (dedupAux [] (go.spans ++ [])))

/-- The accumulation loop of `calculateMeasures` over the gold folder. -/
def cmCollect (removeAnno : List Str) (ignoremissing : Bool) (acc : CMAcc) :
    List MFile → Except PyErr CMAcc
  | [] => .ok acc
  | f :: fs =>
    match cmFile removeAnno ignoremissing acc f with
    | .error e => .error e
    | .ok acc' => cmCollect removeAnno ignoremissing acc' fs

/-- eval.py lines 25-28: a plain-string `remove_anno` argument is wrapped in
a list, and `"types"` implies also removing relations. -/
def removeAnnoList (removeAnno : Str) : List Str :=
  let ra := [removeAnno]
  if ra.contains (pstr "types") then ra ++ [pstr "rel"] else ra

/-- One row of the metrics report: precision, recall, F1 and support. -/
structure MetricRec where
  precision : ℚ
  recallVal : ℚ
  f1 : ℚ
  support : Nat
deriving DecidableEq, Repr

/-- Division that returns 0 on a zero denominator, as
`precision_recall_fscore_support` does for an empty class. -/
def safeDiv (a b : ℚ) : ℚ := if b = 0 then 0 else a / b

/-- Modelled from the spec: true positives of one label for sklearn's
`precision_recall_fscore_support`, which is not part of this repository —
"true positives = exact label match at a shared key". -/
def tpOf (g p : List Str) (t : Str) : Nat :=
  ((g.zip p).filter (fun x => x.1 = t ∧ x.2 = t)).length

/-- Modelled from the spec: false positives of one label — "false positive =
predicted label at a key where gold differs or is absent". -/
def fpOf (g p : List Str) (t : Str) : Nat :=
  ((g.zip p).filter (fun x => x.2 = t ∧ ¬x.1 = t)).length

/-- Modelled from the spec: false negatives of one label — "false negative =
symmetric". -/
def fnOf (g p : List Str) (t : Str) : Nat :=
  ((g.zip p).filter (fun x => x.1 = t ∧ ¬x.2 = t)).length

/-- Modelled from the spec: support of one label, the number of gold
instances. -/
def supOf (g p : List Str) (t : Str) : Nat :=
  ((g.zip p).filter (fun x => x.1 = t)).length

/-- Modelled from the spec: the per-label record of
`precision_recall_fscore_support(..., average=None)` — "standard multiclass
formulas", with F1 the harmonic mean of precision and recall. -/
def labelRec (g p : List Str) (t : Str) : MetricRec :=
  let prec := safeDiv (tpOf g p t) (tpOf g p t + fpOf g p t)
  let rcl := safeDiv (tpOf g p t) (tpOf g p t + fnOf g p t)
  { precision := prec
    recallVal := rcl
    f1 := safeDiv (2 * prec * rcl) (prec + rcl)
    support := supOf g p t }

/-- Sum of a numeric count over the target labels. -/
def sumOver (ts : List Str) (f : Str → Nat) : Nat := (ts.map f).sum

/-- Modelled from the spec: the record of
`precision_recall_fscore_support(..., labels=targets, average='micro')` —
"precision/recall computed over pooled true/false positive counts across all
labels"; its support slot is `sum(support)` of the per-label call
(eval.py line 88). -/
def microRec (g p : List Str) (ts : List Str) : MetricRec :=
  let tp := sumOver ts (tpOf g p)
  let fp := sumOver ts (fpOf g p)
  let fn := sumOver ts (fnOf g p)
  let prec := safeDiv tp (tp + fp)
  let rcl := safeDiv tp (tp + fn)
  { precision := prec
    recallVal := rcl
    f1 := safeDiv (2 * prec * rcl) (prec + rcl)
    support := sumOver ts (supOf g p) }

/-- The printed report: the row labels, the per-label records in row order,
and the `overall` record. -/
structure Report where
  targets : List Str
  perLabel : List (Str × MetricRec)
  overall : MetricRec
deriving DecidableEq, Repr

/-- The reporting tail of `calculateMeasures` (eval.py lines 65-95): with
`"keys"` the row labels are fixed; with `"types"` the `overall` record is
the per-label record of `"KEYPHRASE-NOTYPES"` (a `KeyError` when that label
was never collected), otherwise it is the micro average over the targets. -/
def cmReport (acc : CMAcc) (removeAnno : List Str) : Except PyErr Report :=
  let targets :=
    if removeAnno.contains (pstr "keys") then [pstr "Hyponym-of", pstr "Synonym-of"]
    else acc.targets
  let per := targets.map (fun t => (t, labelRec acc.resAllGold acc.resAllPred t))
  if removeAnno.contains (pstr "types") then
    match per.find? (fun x => x.1 = pstr "KEYPHRASE-NOTYPES") with
    | some kn => .ok ⟨targets, per, kn.2⟩
    | none => .error .keyError
  else
    .ok ⟨targets, per, microRec acc.resAllGold acc.resAllPred targets⟩

/-- The function `calculateMeasures` (eval.py lines 9-95) over the files of a gold
folder paired with their predicted counterparts. -/
def calculateMeasures (files : List MFile) (removeAnno : Str)
    (ignoremissing : Bool) : Except PyErr Report :=
  let ra := removeAnnoList removeAnno
  match cmCollect ra ignoremissing ⟨[], [], []⟩ files with
  | .error e => .error e
  | .ok acc => cmReport acc ra

/-- The loop of `calculateIAA` (eval.py lines 115-152).  The body of
`calculateIAA` reads the name `remove_anno` at lines 122 and 133, but
`remove_anno` is neither a parameter of `calculateIAA` nor assigned in it;
this embedding models calls made when no module-level binding of that name
exists, so each of those two reads raises `NameError`.  For an `.ann` gold
file whose predicted file opens, line 122 raises inside a `try` that only
catches `IOError`; for one whose predicted file is missing, the handler
either skips the file (`ignoremissing`) or falls through to line 133, which
raises as well.  Consequently no labels are ever accumulated, and an `ok`
result (the untouched, empty label sequences on which the kappa score would
then be computed by the external sklearn call) is only reached when every
file was skipped. -/
def calculateIAAGo : List MFile → Bool → Except PyErr (List Str × List Str)
  | [], _ => .ok ([], [])
  | f :: fs, ignoremissing =>
    if !((pstr ".ann").isSuffixOf f.name) then calculateIAAGo fs ignoremissing
    else
      match f.pred with
      | some _ => .error .nameError
      | none =>
        if ignoremissing then calculateIAAGo fs ignoremissing
        else .error .nameError

/-- The function `calculateIAA` (eval.py lines 99-155); see `calculateIAAGo`. -/
def calculateIAA (files : List MFile) (ignoremissing : Bool) :
    Except PyErr (List Str × List Str) :=
  calculateIAAGo files ignoremissing

/-- The gold-side entry the span-key loop produces for one key. -/
def goldEntry (resG spansG : List Str) (k : Str) : Str :=
  if k ∈ spansG then labelAt resG spansG k else pstr "NONE"

/-- The predicted-side entry the span-key loop produces for one key. -/
def predEntry (resP spansP : List Str) (k : Str) : Str :=
  if k ∈ spansP then labelAt resP spansP k else pstr "NONE"

theorem nth_mem {α : Type} {l : List α} {n : Nat} {a : α}
    (h : nth l n = some a) : a ∈ l := by
  induction l generalizing n with
  | nil => simp [nth] at h
  | cons x xs ih =>
    cases n with
    | zero => simp [nth] at h; simp [h]
    | succ m => exact List.mem_cons_of_mem _ (ih h)

theorem nth_lt_some {α : Type} {l : List α} {n : Nat}
    (h : n < l.length) : ∃ a, nth l n = some a := by
  induction l generalizing n with
  | nil => simp at h
  | cons x xs ih =>
    cases n with
    | zero => exact ⟨x, rfl⟩
    | succ m => exact ih (Nat.lt_of_succ_lt_succ h)

theorem idxOf_lt_length {l : List Str} {k : Str} (h : k ∈ l) :
    idxOf l k < l.length := by
  induction l with
  | nil => simp at h
  | cons x xs ih =>
    by_cases hx : x = k
    · simp [idxOf, hx]
    · have hk : k ∈ xs := by
        rcases List.mem_cons.mp h with h1 | h1
        · exact absurd h1.symm hx
        · exact h1
      simp only [idxOf, if_neg hx, List.length_cons]
      exact Nat.succ_lt_succ (ih hk)

theorem dedupAux_mem {α : Type} [DecidableEq α] {x : α} :
    ∀ (l seen : List α), x ∈ dedupAux seen l ↔ x ∈ l ∧ x ∉ seen := by
  intro l
  induction l with
  | nil => intro seen; simp [dedupAux]
  | cons y ys ih =>
    intro seen
    by_cases hy : y ∈ seen
    · rw [dedupAux, if_pos hy, ih]
      constructor
      · rintro ⟨h1, h2⟩; exact ⟨List.mem_cons_of_mem _ h1, h2⟩
      · rintro ⟨h1, h2⟩
        rcases List.mem_cons.mp h1 with h3 | h3
        · exact absurd (h3 ▸ hy) h2
        · exact ⟨h3, h2⟩
    · rw [dedupAux, if_neg hy]
      constructor
      · intro h1
        rcases List.mem_cons.mp h1 with h3 | h3
        · exact ⟨h3 ▸ List.mem_cons_self y ys, h3 ▸ hy⟩
        · have := (ih (seen ++ [y])).mp h3
          refine ⟨List.mem_cons_of_mem _ this.1, fun hc => this.2 ?_⟩
          exact List.mem_append_left _ hc
      · rintro ⟨h1, h2⟩
        rcases List.mem_cons.mp h1 with h3 | h3
        · exact h3 ▸ List.mem_cons_self _ _
        · by_cases hxy : x = y
          · exact hxy ▸ List.mem_cons_self _ _
          · refine List.mem_cons_of_mem _ ((ih (seen ++ [y])).mpr ⟨h3, ?_⟩)
            intro hc
            rcases List.mem_append.mp hc with h4 | h4
            · exact h2 h4
            · exact hxy (List.mem_singleton.mp h4)

theorem dedupAux_nodup {α : Type} [DecidableEq α] :
    ∀ (l seen : List α), (dedupAux seen l).Nodup := by
  intro l
  induction l with
  | nil => intro seen; simp [dedupAux]
  | cons y ys ih =>
    intro seen
    by_cases hy : y ∈ seen
    · rw [dedupAux, if_pos hy]; exact ih seen
    · rw [dedupAux, if_neg hy]
      refine List.nodup_cons.mpr ⟨fun hc => ?_, ih (seen ++ [y])⟩
      exact ((dedupAux_mem ys (seen ++ [y])).mp hc).2 (List.mem_append_right _ (List.mem_singleton.mpr rfl))

theorem collectKeys_gold (resG spansG resP spansP : List Str) :
    ∀ (ks : List Str) (acc : CMAcc),
      (collectKeys resG spansG resP spansP acc ks).resAllGold
        = acc.resAllGold ++ ks.map (goldEntry resG spansG) := by
  intro ks
  induction ks with
  | nil => intro acc; simp [collectKeys]
  | cons k ks ih =>
    intro acc
    by_cases hg : k ∈ spansG <;> by_cases hp : k ∈ spansP <;>
      simp [collectKeys, hg, hp, ih, goldEntry]

theorem collectKeys_pred (resG spansG resP spansP : List Str) :
    ∀ (ks : List Str) (acc : CMAcc),
      (collectKeys resG spansG resP spansP acc ks).resAllPred
        = acc.resAllPred ++ ks.map (predEntry resP spansP) := by
  intro ks
  induction ks with
  | nil => intro acc; simp [collectKeys]
  | cons k ks ih =>
    intro acc
    by_cases hg : k ∈ spansG <;> by_cases hp : k ∈ spansP <;>
      simp [collectKeys, hg, hp, ih, predEntry]

theorem collectKeys_targets_nodup (resG spansG resP spansP : List Str) :
    ∀ (ks : List Str) (acc : CMAcc), acc.targets.Nodup →
      (collectKeys resG spansG resP spansP acc ks).targets.Nodup := by
  intro ks
  induction ks with
  | nil => intro acc h; simpa [collectKeys] using h
  | cons k ks ih =>
    intro acc h
    simp only [collectKeys]
    apply ih
    by_cases hg : k ∈ spansG
    · by_cases ht : labelAt resG spansG k ∈ acc.targets
      · by_cases hp : k ∈ spansP <;> simpa [hg, ht, hp] using h
      · by_cases hp : k ∈ spansP <;>
          simpa [hg, ht, hp, List.nodup_append] using h
    · by_cases hp : k ∈ spansP <;> simpa [hg, hp] using h

theorem collectKeys_targets_mem_gold (resG spansG resP spansP : List Str) :
    ∀ (ks : List Str) (acc : CMAcc),
      (∀ t ∈ acc.targets, t ∈ acc.resAllGold) →
      ∀ t ∈ (collectKeys resG spansG resP spansP acc ks).targets,
        t ∈ (collectKeys resG spansG resP spansP acc ks).resAllGold := by
  intro ks
  induction ks with
  | nil => intro acc h; simpa [collectKeys] using h
  | cons k ks ih =>
    intro acc h
    simp only [collectKeys]
    apply ih
    intro t htt
    by_cases hg : k ∈ spansG
    · by_cases ht : labelAt resG spansG k ∈ acc.targets
      · by_cases hp : k ∈ spansP <;> simp [hg, ht, hp] at htt ⊢ <;>
          exact Or.inl (h t htt)
      · by_cases hp : k ∈ spansP <;> simp [hg, ht, hp] at htt ⊢ <;>
          · rcases htt with h1 | h1
            · exact Or.inl (h t h1)
            · exact Or.inr h1
    · by_cases hp : k ∈ spansP <;> simp [hg, hp] at htt ⊢ <;>
        exact Or.inl (h t htt)

theorem nth_some_lt {α : Type} {l : List α} {n : Nat} {a : α}
    (h : nth l n = some a) : n < l.length := by
  induction l generalizing n with
  | nil => simp [nth] at h
  | cons x xs ih =>
    cases n with
    | zero => simp
    | succ m => exact Nat.succ_lt_succ (ih h)

theorem naStep_len {ra : List Str} {st st' : NAState} {l : Str}
    (h : st.res.length = st.spans.length)
    (he : naStep ra st l = .ok st') : st'.res.length = st'.spans.length := by
  simp only [naStep] at he
  repeat' split at he
  all_goals simp only [Except.ok.injEq, reduceCtorEq] at he
  all_goals (subst he; simp [pushRel, h])

theorem naLines_len {ra : List Str} :
    ∀ {ls : List Str} {st st' : NAState},
      st.res.length = st.spans.length →
      naLines ra ls st = .ok st' → st'.res.length = st'.spans.length := by
  intro ls
  induction ls with
  | nil =>
    intro st st' h he
    simp only [naLines, Except.ok.injEq] at he
    exact he ▸ h
  | cons l ls ih =>
    intro st st' h he
    simp only [naLines] at he
    cases hs : naStep ra st l with
    | error e => rw [hs] at he; exact absurd he (by simp)
    | ok st1 => rw [hs] at he; exact ih (naStep_len h hs) he

theorem rebuildGo_len {full res spans : List Str} (hrs : res.length = spans.length) :
    ∀ (rest : List Str) (acc : NAOut), acc.res.length = acc.spans.length →
      (rebuildGo full res spans rest acc).res.length
        = (rebuildGo full res spans rest acc).spans.length := by
  intro rest
  induction rest with
  | nil => intro acc h; simpa [rebuildGo] using h
  | cons r rest ih =>
    intro acc h
    simp only [rebuildGo]
    split
    · exact ih acc h
    · cases hv : nth res (idxOf full r) with
      | none => simp only [hv]; exact ih _ (by simpa using h)
      | some v =>
        have hlt : idxOf full r < spans.length := hrs ▸ nth_some_lt hv
        obtain ⟨s, hs⟩ := nth_lt_some hlt
        simp only [hv, hs]
        exact ih _ (by simp [h])

theorem appendRels_len : ∀ (rs : List RelT) (acc : NAOut),
    acc.res.length = acc.spans.length →
    (appendRels acc rs).res.length = (appendRels acc rs).spans.length := by
  intro rs
  induction rs with
  | nil => intro acc h; simpa [appendRels] using h
  | cons r rs ih =>
    intro acc h
    simp only [appendRels]
    exact ih _ (by simp [h])

theorem rebuildGo_rels {full res spans : List Str} :
    ∀ (rest : List Str) (acc : NAOut),
      (rebuildGo full res spans rest acc).rels = acc.rels := by
  intro rest
  induction rest with
  | nil => intro acc; simp [rebuildGo]
  | cons r rest ih =>
    intro acc
    simp only [rebuildGo]
    split
    · exact ih acc
    · cases hv : nth res (idxOf full r) with
      | none => simp only [hv]; exact ih _
      | some v =>
        cases hs : nth spans (idxOf full r) with
        | none => simp only [hv, hs]; exact ih _
        | some s => simp only [hv, hs]; exact ih _

theorem appendRels_rels : ∀ (rs : List RelT) (acc : NAOut),
    (appendRels acc rs).rels = acc.rels := by
  intro rs
  induction rs with
  | nil => intro acc; simp [appendRels]
  | cons r rs ih => intro acc; simp only [appendRels]; exact ih _

theorem rebuildGo_res_mem {full res spans : List Str} :
    ∀ (rest : List Str) (acc : NAOut) (x : Str),
      x ∈ (rebuildGo full res spans rest acc).res → x ∈ acc.res ∨ x ∈ res := by
  intro rest
  induction rest with
  | nil => intro acc x hx; simp only [rebuildGo] at hx; exact Or.inl hx
  | cons r rest ih =>
    intro acc x hx
    simp only [rebuildGo] at hx
    split at hx
    · exact ih acc x hx
    · rcases hv : nth res (idxOf full r) with _ | v
      · simp only [hv] at hx
        have h2 := ih _ x hx
        exact h2
      · simp only [hv] at hx
        rcases hs : nth spans (idxOf full r) with _ | s <;> simp only [hs] at hx
        all_goals
          rcases ih _ x hx with h1 | h1
          · rcases List.mem_append.mp h1 with h2 | h2
            · exact Or.inl h2
            · exact Or.inr (List.mem_singleton.mp h2 ▸ nth_mem hv)
          · exact Or.inr h1

/-- Processing a relation-free list appends nothing. -/
theorem appendRels_nil (acc : NAOut) : appendRels acc [] = acc := rfl

theorem normalise_len {lines ra : List Str} {out : NAOut}
    (he : normaliseAnnotations lines ra = .ok out) :
    out.res.length = out.spans.length := by
  unfold normaliseAnnotations at he
  cases hs : naLines ra lines naInit with
  | error e => rw [hs] at he; exact absurd he (by simp)
  | ok st =>
    simp only [hs] at he
    cases hr : rewritePass st.rels with
    | error e => simp only [hr] at he; exact absurd he (by simp)
    | ok rels1 =>
      simp only [hr] at he
      simp only [Except.ok.injEq] at he
      subst he
      have hst : st.res.length = st.spans.length :=
        naLines_len (by simp [naInit]) hs
      exact appendRels_len _ _ (rebuildGo_len hst _ _ (by simp))

theorem pyLt_asymm : ∀ {a b : Str}, pyLt a b = true → pyLt b a = false := by
  intro a
  induction a with
  | nil =>
    intro b h
    cases b with
    | nil => simp [pyLt] at h
    | cons c cs => simp [pyLt]
  | cons x xs ih =>
    intro b h
    cases b with
    | nil => simp [pyLt] at h
    | cons c cs =>
      simp only [pyLt] at h ⊢
      by_cases h1 : x.toNat < c.toNat
      · have h2 : ¬ c.toNat < x.toNat := Nat.lt_asymm h1
        simp [h1, h2]
      · by_cases h2 : c.toNat < x.toNat
        · simp [h1, h2] at h
        · simp only [if_neg h1, if_neg h2] at h
          simp [h1, h2, ih h]

theorem labelAt_all {res spans : List Str} {k : Str}
    (hres : ∀ x ∈ res, x = pstr "KEYPHRASE-NOTYPES")
    (hlen : res.length = spans.length) (hk : k ∈ spans) :
    labelAt res spans k = pstr "KEYPHRASE-NOTYPES" := by
  have hlt : idxOf spans k < res.length := by rw [hlen]; exact idxOf_lt_length hk
  obtain ⟨v, hv⟩ := nth_lt_some hlt
  have hvKN := hres v (nth_mem hv)
  subst hvKN
  show nthD (pySplit ' ' (nthD res (idxOf spans k) [])) 0 [] = _
  rw [show nthD res (idxOf spans k) [] = pstr "KEYPHRASE-NOTYPES" from by
    simp [nthD, hv]]
  decide

theorem collectKeys_targets_all {resG spansG : List Str}
    (hres : ∀ x ∈ resG, x = pstr "KEYPHRASE-NOTYPES")
    (hlen : resG.length = spansG.length) (resP spansP : List Str) :
    ∀ (ks : List Str) (acc : CMAcc),
      (∀ t ∈ acc.targets, t = pstr "KEYPHRASE-NOTYPES") →
      ∀ t ∈ (collectKeys resG spansG resP spansP acc ks).targets,
        t = pstr "KEYPHRASE-NOTYPES" := by
  intro ks
  induction ks with
  | nil => intro acc h; simpa [collectKeys] using h
  | cons k ks ih =>
    intro acc h
    simp only [collectKeys]
    apply ih
    intro t htt
    by_cases hg : k ∈ spansG
    · by_cases ht : labelAt resG spansG k ∈ acc.targets
      · by_cases hp : k ∈ spansP <;> simp [hg, ht, hp] at htt <;> exact h t htt
      · by_cases hp : k ∈ spansP <;> simp [hg, ht, hp] at htt <;>
          · rcases htt with h1 | h1
            · exact h t h1
            · exact h1 ▸ labelAt_all hres hlen hg
    · by_cases hp : k ∈ spansP <;> simp [hg, hp] at htt <;> exact h t htt

theorem naStep_types {ra : List Str} {st st' : NAState} {l : Str}
    (hrel : ra.contains (pstr "rel") = true)
    (htypes : ra.contains (pstr "types") = true)
    (hres : ∀ x ∈ st.res, x = pstr "KEYPHRASE-NOTYPES") (hrels : st.rels = [])
    (he : naStep ra st l = .ok st') :
    (∀ x ∈ st'.res, x = pstr "KEYPHRASE-NOTYPES") ∧ st'.rels = [] := by
  simp only [naStep, hrel, Bool.true_and] at he
  repeat' split at he
  all_goals simp_all only [Except.ok.injEq, reduceCtorEq]
  all_goals subst he
  all_goals refine ⟨fun x hx => ?_, by simp [hrels]⟩
  all_goals (try simp only [htypes, if_true] at hx)
  all_goals (try simp at hx)
  all_goals
    first
      | exact hres x hx
      | (rcases hx with h1 | h1
         · exact hres x h1
         · exact h1)

theorem naLines_types {ra : List Str}
    (hrel : ra.contains (pstr "rel") = true)
    (htypes : ra.contains (pstr "types") = true) :
    ∀ {ls : List Str} {st st' : NAState},
      (∀ x ∈ st.res, x = pstr "KEYPHRASE-NOTYPES") → st.rels = [] →
      naLines ra ls st = .ok st' →
      (∀ x ∈ st'.res, x = pstr "KEYPHRASE-NOTYPES") ∧ st'.rels = [] := by
  intro ls
  induction ls with
  | nil =>
    intro st st' h1 h2 he
    simp only [naLines, Except.ok.injEq] at he
    exact he ▸ ⟨h1, h2⟩
  | cons l ls ih =>
    intro st st' h1 h2 he
    simp only [naLines] at he
    cases hs : naStep ra st l with
    | error e => rw [hs] at he; exact absurd he (by simp)
    | ok st1 =>
      rw [hs] at he
      obtain ⟨h3, h4⟩ := naStep_types hrel htypes h1 h2 hs
      exact ih h3 h4 he

theorem normalise_types {lines ra : List Str} {out : NAOut}
    (hrel : ra.contains (pstr "rel") = true)
    (htypes : ra.contains (pstr "types") = true)
    (he : normaliseAnnotations lines ra = .ok out) :
    (∀ x ∈ out.res, x = pstr "KEYPHRASE-NOTYPES") ∧ out.rels = [] := by
  unfold normaliseAnnotations at he
  cases hs : naLines ra lines naInit with
  | error e => rw [hs] at he; exact absurd he (by simp)
  | ok st =>
    simp only [hs] at he
    obtain ⟨h1, h2⟩ := naLines_types hrel htypes (by simp [naInit]) (by simp [naInit]) hs
    rw [h2] at he
    have hrw : rewritePass [] = .ok ([] : List RelT) := rfl
    have hdd : dedupAux ([] : List RelT) [] = [] := rfl
    simp only [hrw, hdd] at he
    simp only [Except.ok.injEq] at he
    subst he
    constructor
    · intro x hx
      simp only [appendRels_nil] at hx
      rcases rebuildGo_res_mem _ _ x hx with h3 | h3
      · simp at h3
      · exact h1 x h3
    · simp [appendRels_nil, rebuildGo_rels]

/-- A file with three entities, a `Synonym-of` pair over the first two, and a
`Hyponym-of` whose head is the synonym pair's smaller-offset member. -/
def c2File : List Str :=
  [pstr "T1\tKEYPHRASE 0 5\taaa",
   pstr "T2\tKEYPHRASE 10 15\tbbb",
   pstr "T3\tKEYPHRASE 20 25\tccc",
   pstr "R1\tSynonym-of Arg1:T1 Arg2:T2\tx",
   pstr "R2\tHyponym-of Arg1:T1 Arg2:T3\tx"]

/-- C2: the rewrite pass maps hyponym references from the first (smaller
start offset, `"0" < "10"` as Python strings) member of the synonym pair to
the SECOND member, so the returned relation set pairs
`Synonym-of KEYPHRASE_0_5 KEYPHRASE_10_15` with
`Hyponym-of KEYPHRASE_10_15 KEYPHRASE_20_25`: the hyponym references the
non-smallest member of its synonym pair, contradicting the claim (and the
source's own comments at eval.py lines 245 and 249-250, which say hyponyms
should be rewritten to use the smallest member). -/
theorem c2_code_divergence :
    (normaliseAnnotations c2File [pstr ""]).map NAOut.rels
      = .ok [⟨pstr "Synonym-of", pstr "KEYPHRASE_0_5", pstr "KEYPHRASE_10_15"⟩,
             ⟨pstr "Hyponym-of", pstr "KEYPHRASE_10_15", pstr "KEYPHRASE_20_25"⟩]
    ∧ pyLt (nthD (pySplit '_' (pstr "KEYPHRASE_0_5")) 1 [])
        (nthD (pySplit '_' (pstr "KEYPHRASE_10_15")) 1 []) = true :=
  ⟨rfl, rfl⟩

/-- Two entities whose start offsets ascend but whose end offsets descend
(ends 8 and 3), plus a `Synonym-of` between them. -/
def c3File : List Str :=
  [pstr "T1\tKEYPHRASE 1 8\taaa",
   pstr "T2\tKEYPHRASE 2 3\tbbb",
   pstr "R1\tSynonym-of Arg1:T1 Arg2:T2\tx"]

/-- C3 counterexample: the normalised `Synonym-of` relation keeps
`KEYPHRASE_1_8` (end offset `"8"`) first and `KEYPHRASE_2_3` (end offset
`"3"`) second even though `"3" < "8"`: the entity with the smaller end
offset comes second, so the arguments are NOT ordered by the end offset
ascending — the source compares `split("_")[1]`, the start offset. -/
theorem c3_counterexample :
    (normaliseAnnotations c3File [pstr ""]).map NAOut.rels
      = .ok [⟨pstr "Synonym-of", pstr "KEYPHRASE_1_8", pstr "KEYPHRASE_2_3"⟩]
    ∧ nthD (pySplit '_' (pstr "KEYPHRASE_1_8")) 2 [] = pstr "8"
    ∧ nthD (pySplit '_' (pstr "KEYPHRASE_2_3")) 2 [] = pstr "3"
    ∧ pyLt (pstr "3") (pstr "8") = true :=
  ⟨rfl, rfl, rfl, rfl⟩

/-- C3 (amended): the two resolved entity references of a `Synonym-of`
relation are ordered by their FIRST (start) offset token — `split("_")[1]` —
compared as Python strings, ascending: the stored pair is one of the two
arrangements of the input pair, and the start token of its second component
is never Python-string-less-than that of its first. -/
theorem c3_amended (ent1 ent2 t1 t2 : Str)
    (h1 : nth (pySplit '_' ent1) 1 = some t1)
    (h2 : nth (pySplit '_' ent2) 1 = some t2) :
    (orderSynPair ent1 ent2 t1 t2 = (ent1, ent2)
      ∨ orderSynPair ent1 ent2 t1 t2 = (ent2, ent1))
    ∧ pyLt (nthD (pySplit '_' (orderSynPair ent1 ent2 t1 t2).2) 1 [])
        (nthD (pySplit '_' (orderSynPair ent1 ent2 t1 t2).1) 1 []) = false := by
  unfold orderSynPair
  by_cases hlt : pyLt t2 t1 = true
  · simp only [hlt, if_true]
    refine ⟨Or.inr trivial, ?_⟩
    simp only [nthD, h1, h2, Option.getD_some]
    exact pyLt_asymm hlt
  · have hlt2 : pyLt t2 t1 = false := by
      cases hb : pyLt t2 t1
      · rfl
      · exact absurd hb hlt
    simp only [hlt2, Bool.false_eq_true, if_false]
    refine ⟨Or.inl trivial, ?_⟩
    simp only [nthD, h1, h2, Option.getD_some]
    exact hlt2

/-- C3 witness: the amended ordering theorem applied to the two entity
references of `c3File`. -/
theorem c3_amended_witness :
    (orderSynPair (pstr "KEYPHRASE_1_8") (pstr "KEYPHRASE_2_3") (pstr "1") (pstr "2")
        = (pstr "KEYPHRASE_1_8", pstr "KEYPHRASE_2_3")
      ∨ orderSynPair (pstr "KEYPHRASE_1_8") (pstr "KEYPHRASE_2_3") (pstr "1") (pstr "2")
        = (pstr "KEYPHRASE_2_3", pstr "KEYPHRASE_1_8"))
    ∧ pyLt
        (nthD (pySplit '_'
          (orderSynPair (pstr "KEYPHRASE_1_8") (pstr "KEYPHRASE_2_3") (pstr "1") (pstr "2")).2) 1 [])
        (nthD (pySplit '_'
          (orderSynPair (pstr "KEYPHRASE_1_8") (pstr "KEYPHRASE_2_3") (pstr "1") (pstr "2")).1) 1 [])
        = false :=
  c3_amended (pstr "KEYPHRASE_1_8") (pstr "KEYPHRASE_2_3") (pstr "1") (pstr "2") rfl rfl

/-- A well-formed entity line followed by an entity line whose second tab
field has no offset tokens. -/
def c4File : List Str :=
  [pstr "T1\tKEYPHRASE 0 5\tAlice",
   pstr "T2\tKEYPHRASE\tfoo"]

/-- The malformed entity line of `c4File`. -/
def c4Mal : Str := pstr "T2\tKEYPHRASE\tfoo"

/-- C4 counterexample: the malformed entity line is NOT skipped entirely —
it is retained in the first returned sequence (the full normalised lines),
while contributing nothing to the label, span-key and relation sequences
(two diagnostics are printed: one while parsing, one during the rebuild). -/
theorem c4_counterexample :
    (normaliseAnnotations c4File [pstr ""]).map
        (fun o => (o.resFull, o.res, o.spans, o.rels, o.diags))
      = .ok ([pstr "T1\tKEYPHRASE 0 5\tAlice", c4Mal],
             [pstr "KEYPHRASE 0 5"], [pstr "0 5"], [], 2)
    ∧ c4Mal ∈ [pstr "T1\tKEYPHRASE 0 5\tAlice", c4Mal] :=
  ⟨rfl, by simp⟩

/-- C4 (amended): an entity line whose second tab field lacks the offset
tokens contributes no label, span-key or relation entry; a diagnostic is
counted, the stripped line is appended to the full-lines accumulator, and
processing continues with the remaining lines from that state. -/
theorem c4_amended (ra : List Str) (st : NAState) (l : Str) (rest : List Str) (f1 : Str)
    (h1 : nth (pySplit '\t' (pyStrip l)) 1 = some f1)
    (h2 : (pstr "-of").isSuffixOf (nthD (pySplit ' ' f1) 0 []) = false)
    (h3 : nth (pySplit ' ' f1) 2 = none) :
    naLines ra (l :: rest) st
      = naLines ra rest
          { st with resFull := st.resFull ++ [pyStrip l], diags := st.diags + 1 } := by
  have hstep : naStep ra st l
      = .ok { st with resFull := st.resFull ++ [pyStrip l], diags := st.diags + 1 } := by
    simp only [naStep, h1, h2, Bool.and_false, Bool.false_eq_true, if_false]
    cases h4 : nth (pySplit ' ' f1) 1 with
    | none => simp [h4]
    | some o1 => simp [h4, h3]
  simp only [naLines, hstep]

/-- C4 witness: the amended theorem applied to the malformed line of
`c4File` from the initial state. -/
theorem c4_amended_witness :
    naLines [pstr ""] [c4Mal] naInit
      = naLines [pstr ""] []
          { naInit with resFull := naInit.resFull ++ [pyStrip c4Mal], diags := naInit.diags + 1 } :=
  c4_amended [pstr ""] naInit c4Mal [] (pstr "KEYPHRASE") rfl rfl rfl

/-- Two entity lines with different labels over the same character span. -/
def c5File : List Str :=
  [pstr "T1\tKEYPHRASE 0 5\tAlice",
   pstr "T2\tTASK 0 5\tAlice"]

/-- C5 counterexample: both entities of `c5File` contribute the span key
`"0 5"`, so the returned span-key sequence contains a repeated key — the
returned sequences do NOT contain exactly one entry per distinct span key. -/
theorem c5_counterexample :
    (normaliseAnnotations c5File [pstr ""]).map NAOut.spans
      = .ok [pstr "0 5", pstr "0 5"]
    ∧ ¬ ([pstr "0 5", pstr "0 5"] : List Str).Nodup :=
  ⟨rfl, by simp⟩

/-- C5 (amended): for every input file on which `normaliseAnnotations`
succeeds, the returned label and span-key sequences are parallel (equal
length); a distinct span key can however occur more than once. -/
theorem c5_parallel (lines ra : List Str) (out : NAOut)
    (he : normaliseAnnotations lines ra = .ok out) :
    out.res.length = out.spans.length :=
  normalise_len he

/-- The output of `normaliseAnnotations` on `c5File`. -/
def c5Out : NAOut :=
  ⟨c5File, [pstr "KEYPHRASE 0 5", pstr "TASK 0 5"], [pstr "0 5", pstr "0 5"], [], 0⟩

/-- C5 witness: the parallelism theorem applied to the concrete run on
`c5File`. -/
theorem c5_parallel_witness : c5Out.res.length = c5Out.spans.length :=
  c5_parallel c5File [pstr ""] c5Out rfl

/-- An entity line and a relation line whose `Arg1` identifier `T9` matches
no line of the file. -/
def c8File : List Str :=
  [pstr "T1\tKEYPHRASE 0 5\tAlice",
   pstr "R1\tHyponym-of Arg1:T9 Arg2:T1\tfoo"]

/-- C8: on `c8File` the relation's `Arg1` resolves to no line; since the
local `ent1` was never bound, reading it raises, and `normaliseAnnotations`
aborts with the exception instead of skipping the relation with a
diagnostic. -/
theorem c8_unresolved_arg_raises :
    normaliseAnnotations c8File [pstr ""] = .error .nameError :=
  rfl

theorem rewriteInner_noop {e1 e2 : Str} :
    ∀ (n j : Nat) (L : List RelT),
      (∀ h ∈ L, h.label = pstr "Hyponym-of" → h.arg1 ≠ e1 ∧ h.arg2 ≠ e1) →
      rewriteInner e1 e2 j n L = L := by
  intro n
  induction n with
  | zero => intro j L h; rfl
  | succ m ih =>
    intro j L h
    simp only [rewriteInner]
    split
    · rfl
    · rename_i r2 hj
      have hc1 : ¬(r2.label = pstr "Hyponym-of" ∧ e1 = r2.arg1) := by
        rintro ⟨ha, hb⟩
        exact (h r2 (nth_mem hj) ha).1 hb.symm
      have hc2 : ¬(r2.label = pstr "Hyponym-of" ∧ e1 = r2.arg2) := by
        rintro ⟨ha, hb⟩
        exact (h r2 (nth_mem hj) ha).2 hb.symm
      rw [if_neg hc2, if_neg hc1]
      exact ih (j + 1) L h

theorem rewriteOuterGo_noop {L : List RelT}
    (hwf : ∀ r ∈ L, r.label = pstr "Synonym-of" →
      (nth (pySplit '_' r.arg1) 1).isSome ∧ (nth (pySplit '_' r.arg2) 1).isSome)
    (hno : ∀ r ∈ L, r.label = pstr "Synonym-of" →
      ∀ h ∈ L, h.label = pstr "Hyponym-of" → h.arg1 ≠ r.arg1 ∧ h.arg2 ≠ r.arg1) :
    ∀ (n i : Nat), rewriteOuterGo i n L = .ok L := by
  intro n
  induction n with
  | zero => intro i; rfl
  | succ m ih =>
    intro i
    simp only [rewriteOuterGo]
    split
    · rfl
    · rename_i r hi
      by_cases hsyn : r.label = pstr "Synonym-of"
      · have hw := hwf r (nth_mem hi) hsyn
        obtain ⟨w1, hw1⟩ := Option.isSome_iff_exists.mp hw.1
        obtain ⟨w2, hw2⟩ := Option.isSome_iff_exists.mp hw.2
        rw [if_pos hsyn, hw2, hw1]
        show rewriteOuterGo (i + 1) m (rewriteInner r.arg1 r.arg2 0 L.length L) = .ok L
        rw [rewriteInner_noop L.length 0 L
          (fun h hm hl => hno r (nth_mem hi) hsyn h hm hl)]
        exact ih (i + 1)
      · rw [if_neg hsyn]
        exact ih (i + 1)

/-- Entities and relations whose synonym pairs chain: `Synonym-of (b, c)`
precedes `Synonym-of (a, b)` in file order, and a `Hyponym-of` references
`a`. -/
def c6File : List Str :=
  [pstr "T1\tKEYPHRASE 0 5\ta",
   pstr "T2\tKEYPHRASE 10 15\tb",
   pstr "T3\tKEYPHRASE 20 25\tc",
   pstr "T4\tKEYPHRASE 30 35\td",
   pstr "R1\tSynonym-of Arg1:T2 Arg2:T3\tx",
   pstr "R2\tSynonym-of Arg1:T1 Arg2:T2\tx",
   pstr "R3\tHyponym-of Arg1:T1 Arg2:T4\tx"]

/-- The relation set `normaliseAnnotations` returns for `c6File`. -/
def c6Rels : List RelT :=
  [⟨pstr "Synonym-of", pstr "KEYPHRASE_10_15", pstr "KEYPHRASE_20_25"⟩,
   ⟨pstr "Synonym-of", pstr "KEYPHRASE_0_5", pstr "KEYPHRASE_10_15"⟩,
   ⟨pstr "Hyponym-of", pstr "KEYPHRASE_10_15", pstr "KEYPHRASE_30_35"⟩]

/-- The result of re-running the rewrite pass on `c6Rels`. -/
def c6RelsTwice : List RelT :=
  [⟨pstr "Synonym-of", pstr "KEYPHRASE_10_15", pstr "KEYPHRASE_20_25"⟩,
   ⟨pstr "Synonym-of", pstr "KEYPHRASE_0_5", pstr "KEYPHRASE_10_15"⟩,
   ⟨pstr "Hyponym-of", pstr "KEYPHRASE_20_25", pstr "KEYPHRASE_30_35"⟩]

/-- C6 counterexample: `c6Rels` is the relation set `normaliseAnnotations`
itself produced for `c6File` (so the transitive rewrite pass has already run
on it once), yet re-running the pass rewrites its `Hyponym-of` relation — the
pass is not idempotent when synonym pairs chain. -/
theorem c6_counterexample :
    (normaliseAnnotations c6File [pstr ""]).map NAOut.rels = .ok c6Rels
    ∧ rewritePass c6Rels = .ok c6RelsTwice
    ∧ c6RelsTwice ≠ c6Rels :=
  ⟨rfl, rfl, by decide⟩

/-- C6 (amended): the `Synonym-of` argument ordering is idempotent (applying
it to its own output changes nothing), and the transitive rewrite pass
changes no relation when no `Hyponym-of` references the first member of any
`Synonym-of` relation of the list (every synonym argument carrying the
offset token the pass inspects); re-running the pass on a relation set it
has already produced can, however, change relations when synonym pairs
chain. -/
theorem c6_amended :
    (∀ ent1 ent2 t1 t2 : Str,
      nth (pySplit '_' ent1) 1 = some t1 → nth (pySplit '_' ent2) 1 = some t2 →
      orderSynPair (orderSynPair ent1 ent2 t1 t2).1 (orderSynPair ent1 ent2 t1 t2).2
          (nthD (pySplit '_' (orderSynPair ent1 ent2 t1 t2).1) 1 [])
          (nthD (pySplit '_' (orderSynPair ent1 ent2 t1 t2).2) 1 [])
        = orderSynPair ent1 ent2 t1 t2)
    ∧ (∀ L : List RelT,
        (∀ r ∈ L, r.label = pstr "Synonym-of" →
          (nth (pySplit '_' r.arg1) 1).isSome ∧ (nth (pySplit '_' r.arg2) 1).isSome) →
        (∀ r ∈ L, r.label = pstr "Synonym-of" →
          ∀ h ∈ L, h.label = pstr "Hyponym-of" → h.arg1 ≠ r.arg1 ∧ h.arg2 ≠ r.arg1) →
        rewritePass L = .ok L) := by
  constructor
  · intro ent1 ent2 t1 t2 h1 h2
    unfold orderSynPair
    by_cases hlt : pyLt t2 t1 = true
    · simp only [hlt, if_true, nthD, h1, h2, Option.getD_some]
      rw [if_neg]
      rw [pyLt_asymm hlt]
      simp
    · have hlt2 : pyLt t2 t1 = false := by
        cases hb : pyLt t2 t1
        · rfl
        · exact absurd hb hlt
      simp only [hlt2, Bool.false_eq_true, if_false, nthD, h1, h2, Option.getD_some]
  · intro L hwf hno
    exact rewriteOuterGo_noop hwf hno L.length 0

/-- A relation list in which the single synonym's first member is referenced
by no hyponym. -/
def c6Noop : List RelT :=
  [⟨pstr "Synonym-of", pstr "KEYPHRASE_0_5", pstr "KEYPHRASE_10_15"⟩,
   ⟨pstr "Hyponym-of", pstr "KEYPHRASE_10_15", pstr "KEYPHRASE_20_25"⟩]

/-- C6 witness: the amended theorem applied to the `Synonym-of` pair of
`c3File` and to the already-stable relation list `c6Noop`. -/
theorem c6_amended_witness :
    orderSynPair
        (orderSynPair (pstr "KEYPHRASE_1_8") (pstr "KEYPHRASE_2_3") (pstr "1") (pstr "2")).1
        (orderSynPair (pstr "KEYPHRASE_1_8") (pstr "KEYPHRASE_2_3") (pstr "1") (pstr "2")).2
        (nthD (pySplit '_'
          (orderSynPair (pstr "KEYPHRASE_1_8") (pstr "KEYPHRASE_2_3") (pstr "1") (pstr "2")).1) 1 [])
        (nthD (pySplit '_'
          (orderSynPair (pstr "KEYPHRASE_1_8") (pstr "KEYPHRASE_2_3") (pstr "1") (pstr "2")).2) 1 [])
      = orderSynPair (pstr "KEYPHRASE_1_8") (pstr "KEYPHRASE_2_3") (pstr "1") (pstr "2")
    ∧ rewritePass c6Noop = .ok c6Noop :=
  ⟨c6_amended.1 (pstr "KEYPHRASE_1_8") (pstr "KEYPHRASE_2_3") (pstr "1") (pstr "2") rfl rfl,
   c6_amended.2 c6Noop (by decide) (by decide)⟩

/-- C1: the span-key loop of `calculateMeasures`, run on the deduplicated
union of the gold and predicted span keys of one file pair, appends to the
two accumulated label sequences one entry per distinct union key each (so
the two appended blocks are parallel and of equal length): a key present in
gold contributes the gold label recorded at its first gold index, else
`"NONE"`, and a key present in predicted contributes the predicted label at
its first predicted index, else `"NONE"` — see `goldEntry` and `predEntry`.
The key list is duplicate-free and holds exactly the union of the two span
key sets. -/
theorem c1_pair_sequences (resG spansG resP spansP : List Str) (acc : CMAcc) :
    (collectKeys resG spansG resP spansP acc (dedupAux [] (spansG ++ spansP))).resAllGold
      = acc.resAllGold ++ (dedupAux [] (spansG ++ spansP)).map (goldEntry resG spansG)
    ∧ (collectKeys resG spansG resP spansP acc (dedupAux [] (spansG ++ spansP))).resAllPred
      = acc.resAllPred ++ (dedupAux [] (spansG ++ spansP)).map (predEntry resP spansP)
    ∧ (dedupAux [] (spansG ++ spansP)).Nodup
    ∧ (∀ k : Str, k ∈ dedupAux [] (spansG ++ spansP) ↔ k ∈ spansG ∨ k ∈ spansP) := by
  refine ⟨collectKeys_gold _ _ _ _ _ _, collectKeys_pred _ _ _ _ _ _,
    dedupAux_nodup _ _, fun k => ?_⟩
  rw [dedupAux_mem]
  simp

/-- C10: whenever some gold `.ann` file's predicted counterpart opens
successfully, `calculateIAA` (called with no module-level `remove_anno`
binding, as any caller other than the script's `__main__` block does) ends
in `NameError` — no kappa value is ever computed. -/
theorem c10_iaa_name_error : ∀ (files : List MFile) (ig : Bool),
    (∃ f ∈ files, (pstr ".ann").isSuffixOf f.name = true ∧ f.pred.isSome = true) →
    calculateIAA files ig = .error .nameError := by
  intro files
  induction files with
  | nil => intro ig h; simp at h
  | cons f fs ih =>
    intro ig h
    show calculateIAAGo (f :: fs) ig = .error .nameError
    by_cases hann : (pstr ".ann").isSuffixOf f.name = true
    · cases hp : f.pred with
      | some p => simp [calculateIAAGo, hann, hp]
      | none =>
        have htail : ∃ g ∈ fs, (pstr ".ann").isSuffixOf g.name = true ∧ g.pred.isSome = true := by
          rcases h with ⟨g, hg, h1, h2⟩
          rcases List.mem_cons.mp hg with h3 | h3
          · rw [h3, hp] at h2; simp at h2
          · exact ⟨g, h3, h1, h2⟩
        cases ig with
        | true =>
          have hrec := ih true htail
          simpa [calculateIAAGo, hann, hp] using hrec
        | false => simp [calculateIAAGo, hann, hp]
    · have hann2 : (pstr ".ann").isSuffixOf f.name = false := by
        cases hb : (pstr ".ann").isSuffixOf f.name
        · rfl
        · exact absurd hb hann
      have htail : ∃ g ∈ fs, (pstr ".ann").isSuffixOf g.name = true ∧ g.pred.isSome = true := by
        rcases h with ⟨g, hg, h1, h2⟩
        rcases List.mem_cons.mp hg with h3 | h3
        · rw [h3, hann2] at h1; simp at h1
        · exact ⟨g, h3, h1, h2⟩
      have hrec := ih ig htail
      simpa [calculateIAAGo, hann2] using hrec

/-- A gold folder with one `.ann` file whose predicted counterpart opens. -/
def c10Files : List MFile :=
  [⟨pstr "a.ann", [pstr "T1\tKEYPHRASE 0 5\tx"], some [pstr "T1\tKEYPHRASE 0 5\tx"]⟩]

/-- C10 witness: the `NameError` theorem applied to `c10Files`. -/
theorem c10_iaa_name_error_witness : calculateIAA c10Files true = .error .nameError :=
  c10_iaa_name_error c10Files true (by decide)

/-- The number of entries of `g` equal to `t`. -/
def countEq (g : List Str) (t : Str) : Nat := (g.filter (fun x => x = t)).length

theorem filter_zip_self (p : Str × Str → Bool) (q : Str → Bool)
    (hpq : ∀ a, p (a, a) = q a) :
    ∀ g : List Str, ((g.zip g).filter p).length = (g.filter q).length := by
  intro g
  induction g with
  | nil => rfl
  | cons a g ih =>
    rw [List.zip_cons_cons, List.filter_cons, List.filter_cons, hpq]
    cases q a
    · simpa using ih
    · simpa using ih

theorem tpOf_self (g : List Str) (t : Str) : tpOf g g t = countEq g t :=
  filter_zip_self _ _ (fun a => by by_cases h : a = t <;> simp [h]) g

theorem fpOf_self (g : List Str) (t : Str) : fpOf g g t = 0 := by
  have h := filter_zip_self (fun x => decide (x.2 = t ∧ ¬x.1 = t)) (fun _ => false)
    (fun a => by by_cases h : a = t <;> simp [h]) g
  simpa [fpOf] using h

theorem fnOf_self (g : List Str) (t : Str) : fnOf g g t = 0 := by
  have h := filter_zip_self (fun x => decide (x.1 = t ∧ ¬x.2 = t)) (fun _ => false)
    (fun a => by by_cases h : a = t <;> simp [h]) g
  simpa [fnOf] using h

theorem supOf_self (g : List Str) (t : Str) : supOf g g t = countEq g t :=
  filter_zip_self _ _ (fun _ => rfl) g

theorem countEq_pos {g : List Str} {t : Str} (h : t ∈ g) : 0 < countEq g t := by
  induction g with
  | nil => simp at h
  | cons a g ih =>
    by_cases hat : a = t
    · simp [countEq, List.filter_cons, hat]
    · have h2 : t ∈ g := by
        rcases List.mem_cons.mp h with h1 | h1
        · exact absurd h1.symm hat
        · exact h1
      simpa [countEq, List.filter_cons, hat] using ih h2

theorem safeDiv_self {a : ℚ} (h : a ≠ 0) : safeDiv a a = 1 := by
  rw [safeDiv, if_neg h, div_self h]

theorem labelRec_self {g : List Str} {t : Str} (h : t ∈ g) :
    labelRec g g t = ⟨1, 1, 1, countEq g t⟩ := by
  have hc0 : ((countEq g t : ℚ)) ≠ 0 := by
    have h2 := countEq_pos h
    exact_mod_cast h2.ne'
  simp only [labelRec, tpOf_self, fpOf_self, fnOf_self, supOf_self, Nat.cast_zero, add_zero]
  rw [safeDiv_self hc0]
  simp only [MetricRec.mk.injEq]
  refine ⟨trivial, trivial, ?_, trivial⟩
  norm_num [safeDiv]

theorem sumOver_zero {f : Str → Nat} :
    ∀ ts : List Str, (∀ t ∈ ts, f t = 0) → sumOver ts f = 0 := by
  intro ts
  induction ts with
  | nil => intro h; rfl
  | cons t ts ih =>
    intro h
    have h1 := h t (List.mem_cons_self t ts)
    have h2 := ih (fun x hx => h x (List.mem_cons_of_mem _ hx))
    simp only [sumOver, List.map_cons, List.sum_cons] at h2 ⊢
    simp [h1, h2]

theorem microRec_self {g ts : List Str} (hne : ts ≠ []) (hmem : ∀ t ∈ ts, t ∈ g) :
    microRec g g ts = ⟨1, 1, 1, sumOver ts (supOf g g)⟩ := by
  have hfp : sumOver ts (fpOf g g) = 0 := sumOver_zero ts (fun t _ => fpOf_self g t)
  have hfn : sumOver ts (fnOf g g) = 0 := sumOver_zero ts (fun t _ => fnOf_self g t)
  have htp : 0 < sumOver ts (tpOf g g) := by
    cases ts with
    | nil => exact absurd rfl hne
    | cons t ts2 =>
      have h1 : 0 < tpOf g g t := by
        rw [tpOf_self]
        exact countEq_pos (hmem t (List.mem_cons_self t ts2))
      simp only [sumOver, List.map_cons, List.sum_cons]
      omega
  have htp0 : ((sumOver ts (tpOf g g) : ℚ)) ≠ 0 := by exact_mod_cast htp.ne'
  simp only [microRec, hfp, hfn, Nat.cast_zero, add_zero]
  rw [safeDiv_self htp0]
  simp only [MetricRec.mk.injEq]
  refine ⟨trivial, trivial, ?_, trivial⟩
  norm_num [safeDiv]

theorem cmFile_self {ra : List Str} {ig : Bool} {acc acc1 : CMAcc} {f : MFile}
    (hf : f.pred = some f.gold)
    (hgp : acc.resAllGold = acc.resAllPred)
    (hmem : ∀ t ∈ acc.targets, t ∈ acc.resAllGold)
    (he : cmFile ra ig acc f = .ok acc1) :
    acc1.resAllGold = acc1.resAllPred ∧ ∀ t ∈ acc1.targets, t ∈ acc1.resAllGold := by
  unfold cmFile at he
  by_cases hann : (pstr ".ann").isSuffixOf f.name = true
  · simp only [hann, Bool.not_true, Bool.false_eq_true, if_false, hf] at he
    cases hn : normaliseAnnotations f.gold ra with
    | error e => simp only [hn] at he; exact absurd he (by simp)
    | ok go =>
      simp only [hn, Except.ok.injEq] at he
      subst he
      constructor
      · rw [collectKeys_gold, collectKeys_pred, hgp]
        have hge : goldEntry go.res go.spans = predEntry go.res go.spans :=
          funext fun k => rfl
        rw [hge]
      · exact collectKeys_targets_mem_gold _ _ _ _ _ acc hmem
  · have hann2 : (pstr ".ann").isSuffixOf f.name = false := by
      cases hb : (pstr ".ann").isSuffixOf f.name
      · rfl
      · exact absurd hb hann
    simp only [hann2, Bool.not_false, if_true, Except.ok.injEq] at he
    exact he ▸ ⟨hgp, hmem⟩

theorem cmCollect_self {ra : List Str} {ig : Bool} :
    ∀ (files : List MFile) (acc acc1 : CMAcc),
      (∀ f ∈ files, f.pred = some f.gold) →
      acc.resAllGold = acc.resAllPred →
      (∀ t ∈ acc.targets, t ∈ acc.resAllGold) →
      cmCollect ra ig acc files = .ok acc1 →
      acc1.resAllGold = acc1.resAllPred ∧ ∀ t ∈ acc1.targets, t ∈ acc1.resAllGold := by
  intro files
  induction files with
  | nil =>
    intro acc acc1 _ h1 h2 he
    simp only [cmCollect, Except.ok.injEq] at he
    exact he ▸ ⟨h1, h2⟩
  | cons f fs ih =>
    intro acc acc1 hp h1 h2 he
    simp only [cmCollect] at he
    cases hc : cmFile ra ig acc f with
    | error e => rw [hc] at he; exact absurd he (by simp)
    | ok acc2 =>
      rw [hc] at he
      obtain ⟨h3, h4⟩ := cmFile_self (hp f (List.mem_cons_self f fs)) h1 h2 hc
      exact ih acc2 acc1 (fun g hg => hp g (List.mem_cons_of_mem _ hg)) h3 h4 he

/-- C7: when every gold `.ann` file's predicted counterpart is an identical
copy, the report rows are exactly the labels collected from the gold
annotations, and precision, recall and F1 are 1 for every such row and for
the aggregate `overall` record (provided at least one gold annotation
exists, so that the label set is non-empty). -/
theorem c7_identical_perfect_scores (files : List MFile) (ig : Bool) (acc : CMAcc)
    (hpred : ∀ f ∈ files, f.pred = some f.gold)
    (hcol : cmCollect (removeAnnoList (pstr "")) ig ⟨[], [], []⟩ files = .ok acc)
    (hne : acc.targets ≠ []) :
    calculateMeasures files (pstr "") ig
      = .ok ⟨acc.targets,
             acc.targets.map (fun t => (t, labelRec acc.resAllGold acc.resAllPred t)),
             microRec acc.resAllGold acc.resAllPred acc.targets⟩
    ∧ (∀ e ∈ acc.targets.map (fun t => (t, labelRec acc.resAllGold acc.resAllPred t)),
        e.2.precision = 1 ∧ e.2.recallVal = 1 ∧ e.2.f1 = 1)
    ∧ (microRec acc.resAllGold acc.resAllPred acc.targets).precision = 1
    ∧ (microRec acc.resAllGold acc.resAllPred acc.targets).recallVal = 1
    ∧ (microRec acc.resAllGold acc.resAllPred acc.targets).f1 = 1 := by
  obtain ⟨hgp, hmem⟩ :=
    cmCollect_self files ⟨[], [], []⟩ acc hpred rfl (by simp) hcol
  have hk : (removeAnnoList (pstr "")).contains (pstr "keys") = false := rfl
  have ht : (removeAnnoList (pstr "")).contains (pstr "types") = false := rfl
  refine ⟨?_, ?_, ?_, ?_, ?_⟩
  · unfold calculateMeasures
    simp only [hcol]
    unfold cmReport
    simp only [hk, ht, Bool.false_eq_true, if_false]
  · intro e he
    obtain ⟨t, htmem, hte⟩ := List.mem_map.mp he
    subst hte
    rw [← hgp, labelRec_self (hmem t htmem)]
    exact ⟨rfl, rfl, rfl⟩
  · rw [← hgp, microRec_self hne hmem]
  · rw [← hgp, microRec_self hne hmem]
  · rw [← hgp, microRec_self hne hmem]

/-- A gold folder with one annotated file and an identical predicted copy. -/
def c7Files : List MFile :=
  [⟨pstr "a.ann", [pstr "T1\tKEYPHRASE 0 5\tAlice"],
    some [pstr "T1\tKEYPHRASE 0 5\tAlice"]⟩]

/-- The accumulation `calculateMeasures` builds for `c7Files`. -/
def c7Acc : CMAcc := ⟨[pstr "KEYPHRASE"], [pstr "KEYPHRASE"], [pstr "KEYPHRASE"]⟩

/-- C7 witness: the perfect-scores theorem applied to the one-file folder
`c7Files` with its identical predicted copy. -/
theorem c7_identical_perfect_scores_witness :
    calculateMeasures c7Files (pstr "") false
      = .ok ⟨c7Acc.targets,
             c7Acc.targets.map (fun t => (t, labelRec c7Acc.resAllGold c7Acc.resAllPred t)),
             microRec c7Acc.resAllGold c7Acc.resAllPred c7Acc.targets⟩
    ∧ (∀ e ∈ c7Acc.targets.map (fun t => (t, labelRec c7Acc.resAllGold c7Acc.resAllPred t)),
        e.2.precision = 1 ∧ e.2.recallVal = 1 ∧ e.2.f1 = 1)
    ∧ (microRec c7Acc.resAllGold c7Acc.resAllPred c7Acc.targets).precision = 1
    ∧ (microRec c7Acc.resAllGold c7Acc.resAllPred c7Acc.targets).recallVal = 1
    ∧ (microRec c7Acc.resAllGold c7Acc.resAllPred c7Acc.targets).f1 = 1 :=
  c7_identical_perfect_scores c7Files false c7Acc (by decide) rfl (by decide)

theorem eq_singleton_of_all {l : List Str} {a : Str} (hne : l ≠ [])
    (hall : ∀ x ∈ l, x = a) (hnd : l.Nodup) : l = [a] := by
  cases l with
  | nil => exact absurd rfl hne
  | cons x xs =>
    have hx : x = a := hall x (List.mem_cons_self x xs)
    subst hx
    cases xs with
    | nil => rfl
    | cons y ys =>
      have hy : y = x := hall y (by simp)
      have hmem : x ∈ y :: ys := by simp [hy]
      exact absurd hmem (List.nodup_cons.mp hnd).1

theorem cmFile_KN {ig : Bool} {acc acc1 : CMAcc} {f : MFile}
    (hts : ∀ t ∈ acc.targets, t = pstr "KEYPHRASE-NOTYPES")
    (hnd : acc.targets.Nodup)
    (he : cmFile (removeAnnoList (pstr "types")) ig acc f = .ok acc1) :
    (∀ t ∈ acc1.targets, t = pstr "KEYPHRASE-NOTYPES") ∧ acc1.targets.Nodup := by
  have hrel : (removeAnnoList (pstr "types")).contains (pstr "rel") = true := rfl
  have htyp : (removeAnnoList (pstr "types")).contains (pstr "types") = true := rfl
  unfold cmFile at he
  by_cases hann : (pstr ".ann").isSuffixOf f.name = true
  · simp only [hann, Bool.not_true, Bool.false_eq_true, if_false] at he
    cases hp : f.pred with
    | some predLines =>
      simp only [hp] at he
      cases hnp : normaliseAnnotations predLines (removeAnnoList (pstr "types")) with
      | error e => simp only [hnp] at he; exact absurd he (by simp)
      | ok po =>
        simp only [hnp] at he
        cases hng : normaliseAnnotations f.gold (removeAnnoList (pstr "types")) with
        | error e => simp only [hng] at he; exact absurd he (by simp)
        | ok go =>
          simp only [hng, Except.ok.injEq] at he
          subst he
          obtain ⟨hres, _⟩ := normalise_types hrel htyp hng
          have hlen := normalise_len hng
          exact ⟨collectKeys_targets_all hres hlen _ _ _ acc hts,
                 collectKeys_targets_nodup _ _ _ _ _ acc hnd⟩
    | none =>
      simp only [hp] at he
      cases ig with
      | true =>
        simp only [if_true, Except.ok.injEq] at he
        exact he ▸ ⟨hts, hnd⟩
      | false =>
        simp only [Bool.false_eq_true, if_false] at he
        cases hng : normaliseAnnotations f.gold (removeAnnoList (pstr "types")) with
        | error e => simp only [hng] at he; exact absurd he (by simp)
        | ok go =>
          simp only [hng, Except.ok.injEq] at he
          subst he
          obtain ⟨hres, _⟩ := normalise_types hrel htyp hng
          have hlen := normalise_len hng
          exact ⟨collectKeys_targets_all hres hlen _ _ _ acc hts,
                 collectKeys_targets_nodup _ _ _ _ _ acc hnd⟩
  · have hann2 : (pstr ".ann").isSuffixOf f.name = false := by
      cases hb : (pstr ".ann").isSuffixOf f.name
      · rfl
      · exact absurd hb hann
    simp only [hann2, Bool.not_false, if_true, Except.ok.injEq] at he
    exact he ▸ ⟨hts, hnd⟩

theorem cmCollect_KN {ig : Bool} :
    ∀ (files : List MFile) (acc acc1 : CMAcc),
      (∀ t ∈ acc.targets, t = pstr "KEYPHRASE-NOTYPES") → acc.targets.Nodup →
      cmCollect (removeAnnoList (pstr "types")) ig acc files = .ok acc1 →
      (∀ t ∈ acc1.targets, t = pstr "KEYPHRASE-NOTYPES") ∧ acc1.targets.Nodup := by
  intro files
  induction files with
  | nil =>
    intro acc acc1 h1 h2 he
    simp only [cmCollect, Except.ok.injEq] at he
    exact he ▸ ⟨h1, h2⟩
  | cons f fs ih =>
    intro acc acc1 h1 h2 he
    simp only [cmCollect] at he
    cases hc : cmFile (removeAnnoList (pstr "types")) ig acc f with
    | error e => rw [hc] at he; exact absurd he (by simp)
    | ok acc2 =>
      rw [hc] at he
      obtain ⟨h3, h4⟩ := cmFile_KN h1 h2 hc
      exact ih acc2 acc1 h3 h4 he

/-- C9: with `remove_anno = "types"`, every successful normalisation drops
all relation lines (the returned relation set is empty), the only label ever
collected is `"KEYPHRASE-NOTYPES"`, so — given at least one gold annotation —
the report has exactly the row `"KEYPHRASE-NOTYPES"` and its `overall`
record is exactly that row's per-label record, not a micro average. -/
theorem c9_types_single_label (files : List MFile) (ig : Bool) (acc : CMAcc)
    (hcol : cmCollect (removeAnnoList (pstr "types")) ig ⟨[], [], []⟩ files = .ok acc)
    (hne : acc.targets ≠ []) :
    acc.targets = [pstr "KEYPHRASE-NOTYPES"]
    ∧ calculateMeasures files (pstr "types") ig
        = .ok ⟨[pstr "KEYPHRASE-NOTYPES"],
               [(pstr "KEYPHRASE-NOTYPES",
                 labelRec acc.resAllGold acc.resAllPred (pstr "KEYPHRASE-NOTYPES"))],
               labelRec acc.resAllGold acc.resAllPred (pstr "KEYPHRASE-NOTYPES")⟩
    ∧ (∀ (lines : List Str) (out : NAOut),
        normaliseAnnotations lines (removeAnnoList (pstr "types")) = .ok out →
        out.rels = []) := by
  obtain ⟨hts, hnd⟩ := cmCollect_KN files ⟨[], [], []⟩ acc (by simp) (by simp) hcol
  have htKN : acc.targets = [pstr "KEYPHRASE-NOTYPES"] :=
    eq_singleton_of_all hne hts hnd
  refine ⟨htKN, ?_, fun lines out hno =>
    (@normalise_types lines (removeAnnoList (pstr "types")) out rfl rfl hno).2⟩
  unfold calculateMeasures
  simp only [hcol]
  unfold cmReport
  simp only [show (removeAnnoList (pstr "types")).contains (pstr "keys") = false from rfl,
    show (removeAnnoList (pstr "types")).contains (pstr "types") = true from rfl,
    Bool.false_eq_true, if_false, if_true, htKN]
  simp [List.find?]

/-- A gold file with two entities and one relation, predicted by a file with
a single entity; used with `remove_anno = "types"`. -/
def c9Files : List MFile :=
  [⟨pstr "a.ann",
    [pstr "T1\tKEYPHRASE 0 5\tAlice", pstr "T2\tTASK 10 15\tlives",
     pstr "R1\tHyponym-of Arg1:T1 Arg2:T2\tx"],
    some [pstr "T1\tKEYPHRASE 0 5\tAlice"]⟩]

/-- The accumulation `calculateMeasures` builds for `c9Files` under
`remove_anno = "types"`. -/
def c9Acc : CMAcc :=
  ⟨[pstr "KEYPHRASE-NOTYPES", pstr "KEYPHRASE-NOTYPES"],
   [pstr "KEYPHRASE-NOTYPES", pstr "NONE"],
   [pstr "KEYPHRASE-NOTYPES"]⟩

/-- C9 witness: the single-label theorem applied to `c9Files`. -/
theorem c9_types_single_label_witness :
    c9Acc.targets = [pstr "KEYPHRASE-NOTYPES"]
    ∧ calculateMeasures c9Files (pstr "types") false
        = .ok ⟨[pstr "KEYPHRASE-NOTYPES"],
               [(pstr "KEYPHRASE-NOTYPES",
                 labelRec c9Acc.resAllGold c9Acc.resAllPred (pstr "KEYPHRASE-NOTYPES"))],
               labelRec c9Acc.resAllGold c9Acc.resAllPred (pstr "KEYPHRASE-NOTYPES")⟩
    ∧ (∀ (lines : List Str) (out : NAOut),
        normaliseAnnotations lines (removeAnnoList (pstr "types")) = .ok out →
        out.rels = []) :=
  c9_types_single_label c9Files false c9Acc rfl (by decide)

end NerreEval
